import Mathlib

/-!
Shallow embedding of the goat-music song generator (`src/song_generator.py`).

Python's `random.Random(seed)` objects are modelled by an explicit
deterministic stream: a random source `src : Int → Nat → Nat` gives, for each
seed, a stream of raw draws; `randint a b` consumes one draw `v` and returns
`a + v % (b - a + 1)`, which realises exactly the values in `[a, b]` that
Python's `randint` can return (and every such value is realised by some
stream).  `random() < 0.7` is modelled as a draw with both outcomes
realisable, and `choice xs` as `xs[v % len xs]`.

Python `str` values that undergo `.strip()/.replace()/.split()` are handled
as `List Char` (Lean's `String.replace` does not reduce in the kernel);
floats (`energy`, the velocity formula) are modelled as exact rationals,
and `int(...)` as truncation toward zero.
-/

namespace GoatMusic

/-- Ticks per quarter note (`PPQN = 480`). -/
def PPQN : Int := 480

/-- A timed event: absolute tick paired with the raw message byte list
(`(tick, msg)` tuples in the Python source; message entries are Python ints). -/
abbrev TEvent := Int × List Int

/-- Deterministic model of one `random.Random` instance: a raw draw stream
plus a position.  See the module docstring. -/
structure Rng where
  stream : Nat → Nat
  idx : Nat

/-- Consume one raw draw. -/
def Rng.draw (r : Rng) : Nat × Rng :=
  (r.stream r.idx, ⟨r.stream, r.idx + 1⟩)

/-- Model of `rng.randint(a, b)`: uniform over the inclusive range `[a, b]`;
a draw `v` yields `a + v % (b - a + 1)`. -/
def Rng.randint (r : Rng) (a b : Int) : Int × Rng :=
  let d := r.draw
  (a + (d.1 : Int) % (b - a + 1), d.2)

/-- Model of `rng.choice(xs)` for a nonempty list (with a default for the
empty case, which the source never hits): a draw `v` picks `xs[v % len xs]`. -/
def Rng.choiceD (r : Rng) (xs : List Nat) (dflt : Nat) : Nat × Rng :=
  let d := r.draw
  (xs.getD (d.1 % xs.length) dflt, d.2)

/-- Model of the test `rng.random() < 0.7`: one draw, both outcomes
realisable (`True` iff the draw is 0..6 mod 10). -/
def Rng.randLt07 (r : Rng) : Bool × Rng :=
  let d := r.draw
  (d.1 % 10 < 7, d.2)

/-- `random.Random(seed)`: start the stream selected by the seed. -/
def mkRng (src : Int → Nat → Nat) (seed : Int) : Rng :=
  ⟨src seed, 0⟩

/-- Python `int(q)` for an exact rational: truncation toward zero. -/
def int_trunc (q : ℚ) : Int :=
  if q < 0 then -Int.floor (-q) else Int.floor q

/-- The `SongParams` dataclass with its default field values
(floats as exact rationals). -/
structure SongParams where
  bpm : Int := 124
  bars : Int := 8
  time_sig_num : Int := 4
  time_sig_den : Int := 4
  key : String := "C"
  mode : String := "major"
  progression : String := "I-V-vi-IV"
  energy : ℚ := 3/4
  swing : ℚ := 1/10
  seed : Int := 42
  chord_octave : Int := 3
  melody_octave : Int := 5
  bass_octave : Int := 2

/-- Errors the Python code can raise on the modelled paths: `KeyError` from
the `NOTE_TO_SEMI` dict lookup, `ZeroDivisionError` (empty progression's
`bar % 0`, or `60_000_000 / 0`), and `OverflowError` from
`tempo.to_bytes(3, "big")` on an out-of-range tempo. -/
inductive GenErr where
  | keyError (name : String)
  | zeroDivision
  | toBytesOverflow
deriving DecidableEq

/-- Loop of `write_varlen`: `while value > 0: out.insert(0, (value & 0x7F) | 0x80); value >>= 7`.
`value & 0x7F` is `value % 128`, `| 0x80` on a 7-bit value adds 128,
`>>= 7` is division by 128. -/
def varlenLoop (v : Nat) (out : List Int) : List Int :=
  if v > 0 then varlenLoop (v / 128) (((v % 128 : Nat) + 128 : Int) :: out) else out
termination_by v
decreasing_by exact Nat.div_lt_self (by omega) (by omega)

/-- `write_varlen(value)`: clamp with `max(0, int(value))` (here `Int.toNat`),
seed the output with the low 7 bits, then prepend continuation bytes. -/
def write_varlen (value : Int) : List Int :=
  let v := value.toNat
  varlenLoop (v / 128) [(v % 128 : Nat)]

/-- Big-endian base-128 decoder for a variable-length quantity (the inverse
direction is not in the source; modelled from the spec's §4.5/§8 description:
each byte contributes its low 7 bits, most significant group first). -/
def read_varlen (bs : List Int) : Int :=
  bs.foldl (fun acc b => acc * 128 + b % 128) 0

/-- The number of 7-bit groups needed for a value: the number of base-128
digits (1 for values below 128). -/
def numGroups (v : Nat) : Nat :=
  if v < 128 then 1 else numGroups (v / 128) + 1
termination_by v
decreasing_by exact Nat.div_lt_self (by omega) (by omega)

/-- The comparison key of `sorted(events, key=lambda x: x[0])`. -/
def tickLE (a b : TEvent) : Bool := decide (a.1 ≤ b.1)

/-- Body of the `build_track` loop: emit `write_varlen(tick - last)` then the
message bytes, threading `last = tick`. -/
def trackBody (last : Int) : List TEvent → List Int
  | [] => []
  | (t, msg) :: es => write_varlen (t - last) ++ msg ++ trackBody t es

/-- `build_track(events)`: stable-sort by tick, delta-encode, then the final
zero delta and the end-of-track marker `FF 2F 00`. -/
def build_track (events : List TEvent) : List Int :=
  trackBody 0 (events.mergeSort tickLE) ++ write_varlen 0 ++ [0xFF, 0x2F, 0x00]

/-- The `NOTE_TO_SEMI` dict as an association list. -/
def NOTE_TO_SEMI : List (String × Int) :=
  [("C", 0), ("C#", 1), ("Db", 1), ("D", 2), ("D#", 3), ("Eb", 3), ("E", 4),
   ("F", 5), ("F#", 6), ("Gb", 6), ("G", 7), ("G#", 8), ("Ab", 8), ("A", 9),
   ("A#", 10), ("Bb", 10), ("B", 11)]

/-- Python `str.lower` restricted to ASCII letters (the only characters the
source compares after lowering). -/
def pyLower (s : List Char) : List Char :=
  s.map Char.toLower

/-- The 7-interval pattern of `build_scale`: major if `mode.lower() == "major"`,
else natural minor. -/
def scaleIntervals (mode : String) : List Int :=
  if pyLower mode.data = "major".data then [0, 2, 4, 5, 7, 9, 11] else [0, 2, 3, 5, 7, 8, 10]

/-- `midi_note(note_name, octave)` after the dict lookup has produced the
semitone offset: `12 * (octave + 1) + semi`. -/
def midi_note_from (semi octave : Int) : Int :=
  12 * (octave + 1) + semi

/-- `build_scale` after the root lookup: one absolute pitch per interval. -/
def buildScaleFrom (semi : Int) (mode : String) (base_octave : Int) : List Int :=
  (scaleIntervals mode).map (fun i => midi_note_from semi base_octave + i)

/-- Python `str.strip()`: drop leading and trailing whitespace. -/
def pyStrip (s : List Char) : List Char :=
  ((s.dropWhile Char.isWhitespace).reverse.dropWhile Char.isWhitespace).reverse

/-- `.replace("Â°", "")`: remove every occurrence of the two-character
mojibake degree sign, scanning left to right. -/
def stripDegreeSign : List Char → List Char
  | [] => []
  | 'Â' :: '°' :: rest => stripDegreeSign rest
  | c :: rest => c :: stripDegreeSign rest

/-- The `roman_to_degree` mapping dict (keys as character lists). -/
def degreeMap : List (List Char × Nat) :=
  [("i".data, 0), ("ii".data, 1), ("iii".data, 2), ("iv".data, 3),
   ("v".data, 4), ("vi".data, 5), ("vii".data, 6),
   ("I".data, 0), ("II".data, 1), ("III".data, 2), ("IV".data, 3),
   ("V".data, 4), ("VI".data, 5), ("VII".data, 6)]

/-- The normalisation `roman.strip().replace("Â°", "")` applied before the
dict lookup. -/
def normalizeToken (roman : List Char) : List Char :=
  stripDegreeSign (pyStrip roman)

/-- `roman_to_degree(roman)`: `mapping.get(roman.strip().replace("Â°", ""), 0)`. -/
def roman_to_degree (roman : List Char) : Nat :=
  (degreeMap.lookup (normalizeToken roman)).getD 0

/-- Python `split("-")`: cut at every dash, keeping empty pieces. -/
def splitDash : List Char → List (List Char)
  | [] => [[]]
  | '-' :: rest => [] :: splitDash rest
  | c :: rest =>
    match splitDash rest with
    | t :: ts => (c :: t) :: ts
    | [] => [[c]]

/-- `[t.strip() for t in progression.replace("|", "-").split("-") if t.strip()]`. -/
def progressionTokens (s : String) : List (List Char) :=
  ((splitDash (s.data.map (fun c => if c = '|' then '-' else c))).map pyStrip).filter
    (fun t => t ≠ [])

/-- Per-bar triad degrees: resolve the progression token cyclically and take
`[root % 7, (root + 2) % 7, (root + 4) % 7]`. -/
def triad_of (tokens : List (List Char)) (bar : Nat) : List Nat :=
  let root_deg := roman_to_degree (tokens.getD (bar % tokens.length) [])
  [root_deg % 7, (root_deg + 2) % 7, (root_deg + 4) % 7]

/-- Open voicing of a triad: `[scale[d0], scale[d2], scale[d1] + 12]`
(root, fifth, third raised one octave).  Indices are `% 7` so they are in
range of the 7-note scale; `getD` defaults are never hit there. -/
def chord_notes (scale : List Int) (triad : List Nat) : List Int :=
  [scale.getD (triad.getD 0 0) 0, scale.getD (triad.getD 2 0) 0,
   scale.getD (triad.getD 1 0) 0 + 12]

/-- Inner loop of `make_chords` over the voiced notes of one bar:
`stagger = randint(0, 40)`, `vel = int(65 + 15 * energy + randint(-5, 5))`,
emit `(st + stagger, note-on)` and `(et - 100, note-off)`. -/
def chordNoteEvents (energy : ℚ) (st et : Int) : List Int → Rng → List TEvent × Rng
  | [], rng => ([], rng)
  | n :: ns, rng =>
    let s1 := rng.randint 0 40
    let s2 := s1.2.randint (-5) 5
    let vel := int_trunc (65 + 15 * energy + (s2.1 : ℚ))
    let rest := chordNoteEvents energy st et ns s2.2
    ((st + s1.1, [0x90, n, vel]) :: (et - 100, [0x80, n, 0]) :: rest.1, rest.2)

/-- The bar loop of `make_chords`, collecting events and the per-bar triad
degree lists while threading the rng. -/
def chordBars (energy : ℚ) (scale : List Int) (tokens : List (List Char)) (bt : Int) :
    List Nat → Rng → List TEvent × List (List Nat) × Rng
  | [], rng => ([], [], rng)
  | bar :: rest, rng =>
    let triad := triad_of tokens bar
    let notes := chord_notes scale triad
    let st := (bar : Int) * bt
    let et := ((bar : Int) + 1) * bt
    let r1 := chordNoteEvents energy st et notes rng
    let r2 := chordBars energy scale tokens bt rest r1.2
    (r1.1 ++ r2.1, triad :: r2.2.1, r2.2.2)

/-- The chord-track scale, `build_scale(params.key, params.mode, params.chord_octave)`
(the dict lookup's default 0 is only reached when the lookup fails, and then
`make_chords` has already raised `KeyError`). -/
def chordScale (p : SongParams) : List Int :=
  buildScaleFrom ((NOTE_TO_SEMI.lookup p.key).getD 0) p.mode p.chord_octave

/-- The successful body of `make_chords`: the bar loop on the rng seeded from
`params.seed`, over `range(params.bars)`. -/
def chordRun (p : SongParams) (bar_ticks : Int) (src : Int → Nat → Nat) :
    List TEvent × List (List Nat) × Rng :=
  chordBars p.energy (chordScale p) (progressionTokens p.progression) bar_ticks
    (List.range p.bars.toNat) (mkRng src p.seed)

/-- `make_chords(params, bar_ticks)`.  A missing key raises `KeyError` inside
`build_scale`; an empty token list with at least one bar raises
`ZeroDivisionError` at `tokens[bar % len(tokens)]` in the first iteration;
otherwise the result is the event list and per-bar degree list of `chordRun`. -/
def make_chords (p : SongParams) (bar_ticks : Int) (src : Int → Nat → Nat) :
    Except GenErr (List TEvent × List (List Nat)) :=
  match NOTE_TO_SEMI.lookup p.key with
  | none => .error (.keyError p.key)
  | some _ =>
    if 0 < p.bars.toNat ∧ (progressionTokens p.progression).length = 0 then
      .error .zeroDivision
    else
      .ok ((chordRun p bar_ticks src).1, (chordRun p bar_ticks src).2.1)

/-- The fixed 16-step melody rhythm template. -/
def rhythm : List Nat := [1, 0, 0, 1, 0, 1, 0, 0, 1, 0, 0, 1, 0, 0, 0, 0]

/-- One bar of `make_melody` over the enumerated rhythm grid.  For a hit:
pick the degree (chord tone on strong beats or with the 0.7 test, otherwise
any of 7 degrees), then `shift = randint(-20, 20)`,
`st = base_tick + i * (PPQN // 4) + shift`, accented velocity plus
`randint(-10, 10)`, `duration = PPQN // 4 + randint(-50, 50)`. -/
def melodyHits (lead_scale : List Int) (chord_tones : List Nat) (base_tick : Int) :
    List (Nat × Nat) → Rng → List TEvent × Rng
  | [], rng => ([], rng)
  | (i, hit) :: rest, rng =>
    if hit = 0 then melodyHits lead_scale chord_tones base_tick rest rng
    else
      let s1 :=
        if i % 4 = 0 then rng.choiceD chord_tones 0
        else
          let b := rng.randLt07
          if b.1 then b.2.choiceD chord_tones 0 else b.2.choiceD (List.range 7) 0
      let note := lead_scale.getD s1.1 0
      let s2 := s1.2.randint (-20) 20
      let st := base_tick + (i : Int) * (PPQN / 4) + s2.1
      let vel0 : Int := if i = 0 then 100 else if i % 4 = 0 then 85 else 70
      let s3 := s2.2.randint (-10) 10
      let vel := vel0 + s3.1
      let s4 := s3.2.randint (-50) 50
      let duration := PPQN / 4 + s4.1
      let rest' := melodyHits lead_scale chord_tones base_tick rest s4.2
      ((st, [0x91, note, vel]) :: (st + duration, [0x81, note, 0]) :: rest'.1, rest'.2)

/-- The bar loop of `make_melody` (chord tones come from
`chord_degs_per_bar[bar]`). -/
def melodyBars (lead_scale : List Int) (chord_degs : List (List Nat)) (bt : Int) :
    List Nat → Rng → List TEvent × Rng
  | [], rng => ([], rng)
  | bar :: rest, rng =>
    let base_tick := (bar : Int) * bt
    let tones := chord_degs.getD bar []
    let r1 := melodyHits lead_scale tones base_tick rhythm.enum rng
    let r2 := melodyBars lead_scale chord_degs bt rest r1.2
    (r1.1 ++ r2.1, r2.2)

/-- The melody scale, `build_scale(params.key, params.mode, params.melody_octave)`
(default 0 only on the `KeyError` path, as in `chordScale`). -/
def leadScale (p : SongParams) : List Int :=
  buildScaleFrom ((NOTE_TO_SEMI.lookup p.key).getD 0) p.mode p.melody_octave

/-- The successful body of `make_melody`: the bar loop on the rng seeded from
`params.seed + 123`. -/
def melodyRun (p : SongParams) (chord_degs_per_bar : List (List Nat)) (bar_ticks : Int)
    (src : Int → Nat → Nat) : List TEvent × Rng :=
  melodyBars (leadScale p) chord_degs_per_bar bar_ticks (List.range p.bars.toNat)
    (mkRng src (p.seed + 123))

/-- `make_melody(params, chord_degs_per_bar, bar_ticks)` with its own rng
seeded from `seed + 123`. -/
def make_melody (p : SongParams) (chord_degs_per_bar : List (List Nat)) (bar_ticks : Int)
    (src : Int → Nat → Nat) : Except GenErr (List TEvent) :=
  match NOTE_TO_SEMI.lookup p.key with
  | none => .error (.keyError p.key)
  | some _ => .ok (melodyRun p chord_degs_per_bar bar_ticks src).1

/-- One grid step of `make_drums`: kick on 0 and 8, snare on 4 and 12, and on
every even step a hi-hat whose velocity is 90 (steps divisible by 4) or 65
plus `randint(-5, 5)`. -/
def drumSteps (bs : Int) : List Nat → Rng → List TEvent × Rng
  | [], rng => ([], rng)
  | i :: rest, rng =>
    let t := bs + (i : Int) * (PPQN / 4)
    let kick : List TEvent :=
      if i = 0 ∨ i = 8 then [(t, [0x99, 36, 110]), (t + 100, [0x89, 36, 0])] else []
    let snare : List TEvent :=
      if i = 4 ∨ i = 12 then [(t, [0x99, 38, 100]), (t + 100, [0x89, 38, 0])] else []
    if i % 2 = 0 then
      let vel : Int := if i % 4 = 0 then 90 else 65
      let s1 := rng.randint (-5) 5
      let hats : List TEvent := [(t, [0x99, 42, vel + s1.1]), (t + 60, [0x89, 42, 0])]
      let r2 := drumSteps bs rest s1.2
      (kick ++ snare ++ hats ++ r2.1, r2.2)
    else
      let r2 := drumSteps bs rest rng
      (kick ++ snare ++ r2.1, r2.2)

/-- The bar loop of `make_drums`. -/
def drumBars (bt : Int) : List Nat → Rng → List TEvent × Rng
  | [], rng => ([], rng)
  | bar :: rest, rng =>
    let bs := (bar : Int) * bt
    let r1 := drumSteps bs (List.range 16) rng
    let r2 := drumBars bt rest r1.2
    (r1.1 ++ r2.1, r2.2)

/-- `make_drums(params, bar_ticks)` with its own rng seeded from `seed + 999`. -/
def make_drums (p : SongParams) (bar_ticks : Int) (src : Int → Nat → Nat) : List TEvent :=
  (drumBars bar_ticks (List.range p.bars.toNat) (mkRng src (p.seed + 999))).1

/-- `tempo.to_bytes(3, "big")` for `0 ≤ tempo < 2^24`. -/
def tempoBytes (t : Int) : List Int :=
  [t / 65536 % 256, t / 256 % 256, t % 256]

/-- A big-endian 16-bit field of `struct.pack`. -/
def u16be (n : Int) : List Int :=
  [n / 256 % 256, n % 256]

/-- A big-endian 32-bit field of `struct.pack`. -/
def u32be (n : Int) : List Int :=
  [n / 16777216 % 256, n / 65536 % 256, n / 256 % 256, n % 256]

/-- The bytes of `b"MThd"`. -/
def MThd : List Int := [77, 84, 104, 100]

/-- The bytes of `b"MTrk"`. -/
def MTrk : List Int := [77, 84, 114, 107]

/-- `generate_song_bytes(params)`: tempo meta track, the three generators,
`build_track` per track, then `MThd` header plus length-prefixed `MTrk`
chunks.  `int(60_000_000 / bpm)` is modelled as truncating integer division
(float rounding is not modelled); `bpm = 0` raises `ZeroDivisionError` and an
out-of-range tempo makes `to_bytes(3, "big")` raise `OverflowError`. -/
def generate_song_bytes (p : SongParams) (src : Int → Nat → Nat) :
    Except GenErr (List Int) :=
  let bar_ticks := p.time_sig_num * PPQN
  if p.bpm = 0 then .error .zeroDivision
  else
    let tempo := Int.tdiv 60000000 p.bpm
    if tempo < 0 ∨ 16777216 ≤ tempo then .error .toBytesOverflow
    else
      let t0_events : List TEvent := [(0, [0xFF, 0x51, 0x03] ++ tempoBytes tempo)]
      match make_chords p bar_ticks src with
      | .error e => .error e
      | .ok cd =>
        match make_melody p cd.2 bar_ticks src with
        | .error e => .error e
        | .ok melody_ev =>
          let drum_ev := make_drums p bar_ticks src
          let tracks := [build_track t0_events, build_track cd.1,
            build_track melody_ev, build_track drum_ev]
          let header := MThd ++ u32be 6 ++ u16be 1 ++ u16be (tracks.length : Int) ++ u16be PPQN
          .ok (header ++ (tracks.map (fun t => MTrk ++ u32be (t.length : Int) ++ t)).flatten)

/-- The dict argument of `generate_song_bytes_from_dict`, restricted to the
recognised keys (unknown keys are ignored by the `hasattr` guard and are not
modelled). -/
structure ParamOverrides where
  bpm : Option Int := none
  bars : Option Int := none
  time_sig_num : Option Int := none
  time_sig_den : Option Int := none
  key : Option String := none
  mode : Option String := none
  progression : Option String := none
  energy : Option ℚ := none
  swing : Option ℚ := none
  seed : Option Int := none
  chord_octave : Option Int := none
  melody_octave : Option Int := none
  bass_octave : Option Int := none

/-- The `setattr` loop of `generate_song_bytes_from_dict` over a default
`SongParams()`. -/
def applyOverrides (d : ParamOverrides) : SongParams :=
  { bpm := d.bpm.getD 124, bars := d.bars.getD 8,
    time_sig_num := d.time_sig_num.getD 4, time_sig_den := d.time_sig_den.getD 4,
    key := d.key.getD "C", mode := d.mode.getD "major",
    progression := d.progression.getD "I-V-vi-IV",
    energy := d.energy.getD (3/4), swing := d.swing.getD (1/10),
    seed := d.seed.getD 42, chord_octave := d.chord_octave.getD 3,
    melody_octave := d.melody_octave.getD 5, bass_octave := d.bass_octave.getD 2 }

/-- `generate_song_bytes_from_dict(d)`. -/
def generate_song_bytes_from_dict (d : ParamOverrides) (src : Int → Nat → Nat) :
    Except GenErr (List Int) :=
  generate_song_bytes (applyOverrides d) src

/-- The absolute ticks of a track in the order `build_track` serialises them
(stable sort by tick). -/
def sortedTicks (events : List TEvent) : List Int :=
  (events.mergeSort tickLE).map (fun e => e.1)

/-- The messages of a track in serialisation order. -/
def sortedMsgs (events : List TEvent) : List (List Int) :=
  (events.mergeSort tickLE).map (fun e => e.2)

/-- The successive delta times `tick - last` computed by the `build_track`
loop, starting from `last`. -/
def deltasFrom (last : Int) : List Int → List Int
  | [] => []
  | t :: ts => (t - last) :: deltasFrom t ts

/-- Cumulative sums: the absolute ticks reconstructed from a delta list. -/
def cumsum (last : Int) : List Int → List Int
  | [] => []
  | d :: ds => (last + d) :: cumsum (last + d) ds

/-- The pitch bytes of the note-on messages of an event list, in order. -/
def notedOnPitches (evs : List TEvent) : List Int :=
  evs.filterMap (fun e =>
    match e.2 with
    | st :: n :: _ => if st = 0x90 then some n else none
    | _ => none)

/-- A three-byte channel-voice message whose pitch and velocity bytes are in
`[0, 127]` (every generator message is a three-byte note-on/note-off). -/
def noteBytesOk : List Int → Prop
  | [_, n, v] => 0 ≤ n ∧ n ≤ 127 ∧ 0 ≤ v ∧ v ≤ 127
  | _ => False

/-- The all-zero random source: every `randint(a, b)` draw realises `a`,
every `choice` picks the first element, every `random() < 0.7` test is true. -/
def zeroSrc : Int → Nat → Nat := fun _ _ => 0

/-- A default `SongParams()` record. -/
def defaultParams : SongParams := {}

/-! ## Variable-length quantity theory -/

/-- Closed form of the continuation bytes the `write_varlen` loop prepends:
the base-128 digits of `v`, most significant first, each with 128 added. -/
def contDigits (v : Nat) : List Int :=
  if v = 0 then [] else contDigits (v / 128) ++ [((v % 128 : Nat) : Int) + 128]
termination_by v
decreasing_by exact Nat.div_lt_self (by omega) (by omega)

theorem varlenLoop_eq (v : Nat) : ∀ out, varlenLoop v out = contDigits v ++ out := by
  induction v using Nat.strong_induction_on with
  | _ v ih =>
    intro out
    rw [varlenLoop, contDigits]
    by_cases h : v = 0
    · simp [h]
    · rw [if_pos (by omega : v > 0), if_neg h,
        ih (v / 128) (Nat.div_lt_self (by omega) (by omega))]
      simp

theorem write_varlen_eq (value : Int) :
    write_varlen value = contDigits (value.toNat / 128) ++ [((value.toNat % 128 : Nat) : Int)] := by
  simp [write_varlen, varlenLoop_eq]

theorem foldl_contDigits (v : Nat) : ∀ a : Int,
    (contDigits v).foldl (fun acc b => acc * 128 + b % 128) a
      = a * (128 : Int) ^ (contDigits v).length + v := by
  induction v using Nat.strong_induction_on with
  | _ v ih =>
    intro a
    rw [contDigits]
    by_cases h : v = 0
    · simp [h]
    · rw [if_neg h]
      have hm : (((v % 128 : Nat) : Int) + 128) % 128 = ((v % 128 : Nat) : Int) := by
        omega
      rw [List.foldl_append, ih (v / 128) (Nat.div_lt_self (by omega) (by omega))]
      simp only [List.foldl_cons, List.foldl_nil, List.length_append, List.length_cons,
        List.length_nil, hm]
      have hsplit : ((v / 128 : Nat) : Int) * 128 + ((v % 128 : Nat) : Int) = (v : Nat) := by
        push_cast
        omega
      rw [pow_succ]
      ring_nf
      nlinarith [hsplit]

theorem read_write_varlen (value : Int) :
    read_varlen (write_varlen value) = (value.toNat : Int) := by
  rw [write_varlen_eq, read_varlen, List.foldl_append, foldl_contDigits]
  simp only [List.foldl_cons, List.foldl_nil]
  have h1 : ((value.toNat % 128 : Nat) : Int) % 128 = ((value.toNat % 128 : Nat) : Int) := by
    omega
  rw [h1]
  have hsplit : ((value.toNat / 128 : Nat) : Int) * 128 + ((value.toNat % 128 : Nat) : Int)
      = (value.toNat : Int) := by
    push_cast
    omega
  nlinarith [hsplit]

theorem contDigits_length_succ (v : Nat) : (contDigits (v / 128)).length + 1 = numGroups v := by
  induction v using Nat.strong_induction_on with
  | _ v ih =>
    rw [numGroups]
    by_cases h : v < 128
    · rw [if_pos h]
      have : v / 128 = 0 := Nat.div_eq_of_lt h
      rw [this, contDigits]
      simp
    · rw [if_neg h, ← ih (v / 128) (Nat.div_lt_self (by omega) (by omega))]
      conv_lhs => rw [contDigits]
      rw [if_neg (by omega : ¬ v / 128 = 0)]
      simp

theorem write_varlen_length (value : Int) :
    (write_varlen value).length = numGroups value.toNat := by
  rw [write_varlen_eq, List.length_append]
  simpa using contDigits_length_succ value.toNat

theorem contDigits_mem (v : Nat) : ∀ b ∈ contDigits v, 128 ≤ b ∧ b ≤ 255 := by
  induction v using Nat.strong_induction_on with
  | _ v ih =>
    intro b hb
    rw [contDigits] at hb
    by_cases h : v = 0
    · simp [h] at hb
    · rw [if_neg h] at hb
      rcases List.mem_append.mp hb with h1 | h2
      · exact ih (v / 128) (Nat.div_lt_self (by omega) (by omega)) b h1
      · simp at h2
        have : ((v % 128 : Nat) : Int) < 128 := by exact_mod_cast Nat.mod_lt v (by omega)
        constructor <;> [skip; skip] <;> omega

/-! ## Claims C2, C3, C10: the variable-length encoder -/

/-- C2 (confirmed): for every non-negative integer `v`, decoding the bytes of
`write_varlen v` yields `v` back (the decoder is the big-endian base-128 fold,
so this also witnesses the most-significant-group-first order); 0 encodes as
exactly one zero byte; a value needing `k` 7-bit groups encodes as exactly
`k` bytes; every byte but the last carries the continuation bit (value in
`[128, 255]`) and the last byte does not (value in `[0, 128)`). -/
theorem varlen_round_trip_and_shape (v : Nat) :
    read_varlen (write_varlen (v : Int)) = (v : Int)
    ∧ write_varlen 0 = [0]
    ∧ (write_varlen (v : Int)).length = numGroups v
    ∧ (∀ b ∈ (write_varlen (v : Int)).dropLast, 128 ≤ b ∧ b ≤ 255)
    ∧ (∀ b, (write_varlen (v : Int)).getLast? = some b → 0 ≤ b ∧ b < 128) := by
  refine ⟨?_, ?_, ?_, ?_, ?_⟩
  · rw [read_write_varlen]
    simp
  · simp [write_varlen, varlenLoop]
  · rw [write_varlen_length]
    simp
  · rw [write_varlen_eq]
    intro b hb
    rw [List.dropLast_concat] at hb
    exact contDigits_mem _ b hb
  · rw [write_varlen_eq]
    intro b hb
    rw [List.getLast?_concat, Option.some.injEq] at hb
    have hlt : ((v : Int).toNat % 128 : Nat) < 128 := Nat.mod_lt _ (by omega)
    constructor <;> omega

/-- Witness for C2 at `v = 777` (bytes `[134, 9]`): the round trip holds and
the single continuation byte 134 is in `[128, 255]`. -/
theorem varlen_round_trip_witness :
    read_varlen (write_varlen ((777 : Nat) : Int)) = ((777 : Nat) : Int)
    ∧ (128 ≤ (134 : Int) ∧ (134 : Int) ≤ 255) :=
  ⟨(varlen_round_trip_and_shape 777).1,
   (varlen_round_trip_and_shape 777).2.2.2.1 134 (by
      simp [write_varlen, varlenLoop, contDigits])⟩

/-- C3 counterexample: `write_varlen 300` is not `[0xA2, 0x2C]` as the spec
scenario states (0xA2 0x2C decodes to 4396, not 300). -/
theorem varlen_300_spec_cex : write_varlen 300 ≠ [0xA2, 0x2C] := by
  simp [write_varlen, varlenLoop]

/-- C3 amended: value 300 encodes as the two bytes `[0x82, 0x2C]`. -/
theorem varlen_300_encodes : write_varlen 300 = [0x82, 0x2C] := by
  simp [write_varlen, varlenLoop]

/-- C10 (confirmed): `write_varlen` is total over the integers and encodes
`max(0, v)` (= `Int.toNat v` cast back): its output equals the encoding of
the clamped value, decodes to the clamped value, and every non-positive
input (in particular every negative delta) yields the single byte `0x00`. -/
theorem varlen_total_clamps (v : Int) :
    write_varlen v = write_varlen (v.toNat : Int)
    ∧ read_varlen (write_varlen v) = (v.toNat : Int)
    ∧ (v ≤ 0 → write_varlen v = [0]) := by
  refine ⟨?_, read_write_varlen v, ?_⟩
  · have h : ((v.toNat : Int)).toNat = v.toNat := by omega
    rw [write_varlen_eq, write_varlen_eq, h]
  · intro hv
    have h0 : v.toNat = 0 := by omega
    rw [write_varlen_eq, h0]
    simp [contDigits]

/-- Witness for C10 at `v = -7`: the hypothesis `-7 ≤ 0` holds and the
encoding is the single zero byte. -/
theorem varlen_total_clamps_witness : (-7 : Int) ≤ 0 ∧ write_varlen (-7) = [0] :=
  ⟨by norm_num, (varlen_total_clamps (-7)).2.2 (by norm_num)⟩

/-! ## Claim C4: delta-time reconstruction -/

theorem tickLE_trans : ∀ a b c : TEvent, tickLE a b = true → tickLE b c = true → tickLE a c = true := by
  intro a b c hab hbc
  simp only [tickLE, decide_eq_true_eq] at *
  omega

theorem tickLE_total : ∀ a b : TEvent, (tickLE a b || tickLE b a) = true := by
  intro a b
  simp only [tickLE, Bool.or_eq_true, decide_eq_true_eq]
  omega

theorem sortedTicks_pairwise (events : List TEvent) :
    List.Pairwise (fun a b => a ≤ b) (sortedTicks events) := by
  rw [sortedTicks, List.pairwise_map]
  exact (List.sorted_mergeSort tickLE_trans tickLE_total events).imp
    (fun h => by simpa [tickLE] using h)

theorem sortedTicks_nonneg (events : List TEvent) (h : ∀ e ∈ events, 0 ≤ e.1) :
    ∀ t ∈ sortedTicks events, 0 ≤ t := by
  intro t ht
  rw [sortedTicks, List.mem_map] at ht
  obtain ⟨e, he, rfl⟩ := ht
  exact h e ((List.mergeSort_perm events tickLE).mem_iff.mp he)

theorem trackBody_eq (last : Int) (es : List TEvent) :
    trackBody last es =
      (List.zipWith (fun d m => write_varlen d ++ m)
        (deltasFrom last (es.map (fun e => e.1))) (es.map (fun e => e.2))).flatten := by
  induction es generalizing last with
  | nil => simp [trackBody, deltasFrom]
  | cons e es ih =>
    obtain ⟨t, msg⟩ := e
    simp [trackBody, deltasFrom, ih t]

theorem cumsum_deltasFrom (last : Int) (ts : List Int) :
    cumsum last (deltasFrom last ts) = ts := by
  induction ts generalizing last with
  | nil => simp [deltasFrom, cumsum]
  | cons t ts ih =>
    rw [deltasFrom, cumsum]
    have h : last + (t - last) = t := by ring
    rw [h, ih t]

theorem deltasFrom_nonneg (ts : List Int) : ∀ last, (∀ t ∈ ts, last ≤ t) →
    List.Pairwise (fun a b => a ≤ b) ts → ∀ d ∈ deltasFrom last ts, 0 ≤ d := by
  induction ts with
  | nil => simp [deltasFrom]
  | cons t ts ih =>
    intro last h0 hp d hd
    rw [deltasFrom] at hd
    rcases List.mem_cons.mp hd with h | h
    · have := h0 t (List.mem_cons_self t ts)
      omega
    · exact ih t (List.pairwise_cons.mp hp).1 (List.pairwise_cons.mp hp).2 d h

theorem map_decode_eq (ds : List Int) (h : ∀ d ∈ ds, 0 ≤ d) :
    ds.map (fun d => read_varlen (write_varlen d)) = ds := by
  induction ds with
  | nil => rfl
  | cons d ds ih =>
    rw [List.map_cons, read_write_varlen, ih (fun x hx => h x (List.mem_cons_of_mem _ hx)),
      Int.toNat_of_nonneg (h d (List.mem_cons_self d ds))]

/-- C4 (confirmed): for every track whose events carry non-negative absolute
ticks (the spec's Tick type), `build_track` stores exactly the delta-encoded
bytes of the tick-sorted events, and decoding each stored delta and summing
cumulatively reproduces the sorted absolute-tick sequence exactly. -/
theorem track_delta_reconstruction (events : List TEvent) (h : ∀ e ∈ events, 0 ≤ e.1) :
    build_track events =
      (List.zipWith (fun d m => write_varlen d ++ m)
        (deltasFrom 0 (sortedTicks events)) (sortedMsgs events)).flatten
        ++ write_varlen 0 ++ [0xFF, 0x2F, 0x00]
    ∧ cumsum 0 ((deltasFrom 0 (sortedTicks events)).map
        (fun d => read_varlen (write_varlen d))) = sortedTicks events := by
  constructor
  · rw [build_track, trackBody_eq]
    rfl
  · have hd : ∀ d ∈ deltasFrom 0 (sortedTicks events), 0 ≤ d :=
      deltasFrom_nonneg (sortedTicks events) 0 (sortedTicks_nonneg events h)
        (sortedTicks_pairwise events)
    rw [map_decode_eq _ hd, cumsum_deltasFrom]

/-- Witness for C4 on the concrete two-event track `[(5, [1]), (3, [2])]`. -/
theorem track_delta_reconstruction_witness :
    (∀ e ∈ ([(5, [1]), (3, [2])] : List TEvent), 0 ≤ e.1)
    ∧ (build_track [(5, [1]), (3, [2])] =
        (List.zipWith (fun d m => write_varlen d ++ m)
          (deltasFrom 0 (sortedTicks [(5, [1]), (3, [2])]))
          (sortedMsgs [(5, [1]), (3, [2])])).flatten
          ++ write_varlen 0 ++ [0xFF, 0x2F, 0x00]
      ∧ cumsum 0 ((deltasFrom 0 (sortedTicks [(5, [1]), (3, [2])])).map
          (fun d => read_varlen (write_varlen d))) = sortedTicks [(5, [1]), (3, [2])]) :=
  ⟨by decide, track_delta_reconstruction _ (by decide)⟩

/-! ## Claims C1, C7, C8: determinism, validation, token parsing -/

/-- C1 (confirmed): generation is a pure, deterministic function of the
configuration record and of the randomness source its seed selects: two
calls with identical configuration and identical modelled random streams
return identical output buffers. -/
theorem generate_deterministic (p₁ p₂ : SongParams) (src₁ src₂ : Int → Nat → Nat)
    (hp : p₁ = p₂) (hs : src₁ = src₂) :
    generate_song_bytes p₁ src₁ = generate_song_bytes p₂ src₂ := by
  rw [hp, hs]

/-- Witness for C1 at the default configuration and the all-zero source. -/
theorem generate_deterministic_witness :
    defaultParams = defaultParams ∧ zeroSrc = zeroSrc
    ∧ generate_song_bytes defaultParams zeroSrc = generate_song_bytes defaultParams zeroSrc :=
  ⟨rfl, rfl, generate_deterministic defaultParams defaultParams zeroSrc zeroSrc rfl rfl⟩

theorem lookup_getD_bound {α β : Type} [BEq α] (P : β → Prop) (l : List (α × β)) (k : α)
    (d : β) (hl : ∀ q ∈ l, P q.2) (hd : P d) : P ((l.lookup k).getD d) := by
  induction l with
  | nil => simpa [List.lookup]
  | cons q l ih =>
    obtain ⟨a, b⟩ := q
    rw [List.lookup]
    split
    · simpa using hl (a, b) (List.mem_cons_self _ _)
    · exact ih (fun q hq => hl q (List.mem_cons_of_mem _ hq))

/-- C8 counterexample: the mixed-case numeral token "Vi" should map to
degree 5 under the claimed case-insensitivity, but the code maps it to the
default degree 0 (the dict holds only all-lowercase and all-uppercase
spellings). -/
theorem mixed_case_roman_cex : ¬ (roman_to_degree "Vi".data = 5) := by decide

/-- C8 amended: the parser maps each all-lowercase or all-uppercase roman
numeral `i..vii` / `I..VII` to its zero-based index; every result is in
`[0, 6]`; every token whose normalised form is not in the dict (including
mixed-case numerals such as "Vi") maps to degree 0 without any error. -/
theorem roman_degree_amended :
    (roman_to_degree "i".data = 0 ∧ roman_to_degree "ii".data = 1
      ∧ roman_to_degree "iii".data = 2 ∧ roman_to_degree "iv".data = 3
      ∧ roman_to_degree "v".data = 4 ∧ roman_to_degree "vi".data = 5
      ∧ roman_to_degree "vii".data = 6 ∧ roman_to_degree "I".data = 0
      ∧ roman_to_degree "II".data = 1 ∧ roman_to_degree "III".data = 2
      ∧ roman_to_degree "IV".data = 3 ∧ roman_to_degree "V".data = 4
      ∧ roman_to_degree "VI".data = 5 ∧ roman_to_degree "VII".data = 6)
    ∧ (∀ s : List Char, roman_to_degree s ≤ 6)
    ∧ (∀ s : List Char, degreeMap.lookup (normalizeToken s) = none → roman_to_degree s = 0)
    ∧ roman_to_degree "Vi".data = 0 := by
  refine ⟨by decide, ?_, ?_, by decide⟩
  · intro s
    rw [roman_to_degree]
    exact lookup_getD_bound (fun n => n ≤ 6) degreeMap (normalizeToken s) 0 (by decide)
      (Nat.zero_le 6)
  · intro s hs
    rw [roman_to_degree, hs]
    rfl

/-- Witness for C8 at the unrecognised token "xyz" and the numeral "vii". -/
theorem roman_degree_amended_witness :
    degreeMap.lookup (normalizeToken "xyz".data) = none
    ∧ roman_to_degree "xyz".data = 0
    ∧ roman_to_degree "vii".data ≤ 6 :=
  ⟨by decide, roman_degree_amended.2.2.1 "xyz".data (by decide),
   roman_degree_amended.2.1 "vii".data⟩

/-- C7 counterexample: a configuration with a non-positive bar count is not
rejected before generation — generation runs and returns a buffer. -/
theorem no_validation_cex :
    (generate_song_bytes_from_dict { bars := some 0 } zeroSrc).isOk = true := rfl

/-- C7 amended: no configuration validation exists.  A non-positive bar
count silently yields a (nearly empty) buffer; an empty progression with a
positive bar count fails with a division error raised inside chord
generation (not with a dedicated configuration error before generation);
out-of-range energy or looseness values are accepted and generation
completes. -/
theorem no_validation_behavior :
    (generate_song_bytes_from_dict { bars := some 0 } zeroSrc).isOk = true
    ∧ (generate_song_bytes_from_dict { bars := some (-3) } zeroSrc).isOk = true
    ∧ generate_song_bytes_from_dict { progression := some "" } zeroSrc
        = .error .zeroDivision
    ∧ (generate_song_bytes_from_dict { bars := some 1, energy := some 10 } zeroSrc).isOk = true
    ∧ (generate_song_bytes_from_dict { bars := some 1, swing := some 5 } zeroSrc).isOk = true :=
  ⟨rfl, rfl, rfl, rfl, rfl⟩

/-! ## Claim C5: tick bounds -/

theorem randint_bounds (r : Rng) (a b : Int) (h : a ≤ b) :
    a ≤ (r.randint a b).1 ∧ (r.randint a b).1 ≤ b := by
  have h1 : 0 ≤ ((r.draw.1 : Int)) % (b - a + 1) := Int.emod_nonneg _ (by omega)
  have h2 : ((r.draw.1 : Int)) % (b - a + 1) < b - a + 1 := Int.emod_lt_of_pos _ (by omega)
  simp only [Rng.randint]
  omega

theorem mem_ite_nil {c : Prop} [Decidable c] {l : List TEvent} {e : TEvent}
    (h : e ∈ if c then l else []) : e ∈ l := by
  split at h
  · exact h
  · simp at h

theorem chordNoteEvents_tick_bounds (energy : ℚ) (st et : Int) (notes : List Int) :
    ∀ rng, 0 ≤ st → 100 ≤ et → ∀ e ∈ (chordNoteEvents energy st et notes rng).1, 0 ≤ e.1 := by
  induction notes with
  | nil =>
    intro rng _ _ e he
    simp [chordNoteEvents] at he
  | cons n ns ih =>
    intro rng hst het e he
    simp only [chordNoteEvents, List.mem_cons] at he
    rcases he with he | he | he
    · have hb := randint_bounds rng 0 40 (by norm_num)
      rw [he]
      simp only
      omega
    · rw [he]
      simp only
      omega
    · exact ih _ hst het e he

theorem chordBars_tick_bounds (energy : ℚ) (scale : List Int) (tokens : List (List Char))
    (bt : Int) (hbt : 100 ≤ bt) (l : List Nat) :
    ∀ rng, ∀ e ∈ (chordBars energy scale tokens bt l rng).1, 0 ≤ e.1 := by
  induction l with
  | nil =>
    intro rng e he
    simp [chordBars] at he
  | cons bar rest ih =>
    intro rng e he
    simp only [chordBars, List.mem_append] at he
    rcases he with he | he
    · have hst : (0 : Int) ≤ (bar : Int) * bt :=
        mul_nonneg (Int.natCast_nonneg bar) (by omega)
      have het : (100 : Int) ≤ ((bar : Int) + 1) * bt := by
        have hx : ((bar : Int) + 1) * bt = (bar : Int) * bt + bt := by ring
        linarith
      exact chordNoteEvents_tick_bounds energy _ _ _ _ hst het e he
    · exact ih _ e he

theorem melodyHits_tick_bounds (lead_scale : List Int) (chord_tones : List Nat)
    (base_tick : Int) (hbase : 0 ≤ base_tick) (grid : List (Nat × Nat)) :
    ∀ rng, ∀ e ∈ (melodyHits lead_scale chord_tones base_tick grid rng).1,
      (-20 : Int) ≤ e.1 := by
  induction grid with
  | nil =>
    intro rng e he
    simp [melodyHits] at he
  | cons ih_pair rest ih =>
    obtain ⟨i, hit⟩ := ih_pair
    intro rng e he
    by_cases hh : hit = 0
    · rw [melodyHits, if_pos hh] at he
      exact ih _ e he
    · rw [melodyHits, if_neg hh] at he
      simp only [List.mem_cons] at he
      have hq : PPQN / 4 = (120 : Int) := by decide
      have hgrid : (0 : Int) ≤ (i : Int) * (PPQN / 4) := by
        rw [hq]
        positivity
      rcases he with he | he | he
      · rw [he]
        simp only
        have hgen : ∀ x : Rng,
            (-20 : Int) ≤ base_tick + (i : Int) * (PPQN / 4) + (x.randint (-20) 20).1 := by
          intro x
          have hb := randint_bounds x (-20) 20 (by norm_num)
          omega
        exact hgen _
      · rw [he]
        simp only
        have hgen : ∀ x : Rng,
            (-20 : Int) ≤ base_tick + (i : Int) * (PPQN / 4) + (x.randint (-20) 20).1
              + (PPQN / 4
                + (((x.randint (-20) 20).2.randint (-10) 10).2.randint (-50) 50).1) := by
          intro x
          have hb := randint_bounds x (-20) 20 (by norm_num)
          have hd := randint_bounds ((x.randint (-20) 20).2.randint (-10) 10).2 (-50) 50
            (by norm_num)
          rw [hq] at hgrid ⊢
          omega
        exact hgen _
      · exact ih _ e he

theorem melodyBars_tick_bounds (lead_scale : List Int) (chord_degs : List (List Nat))
    (bt : Int) (hbt : 0 ≤ bt) (l : List Nat) :
    ∀ rng, ∀ e ∈ (melodyBars lead_scale chord_degs bt l rng).1, (-20 : Int) ≤ e.1 := by
  induction l with
  | nil =>
    intro rng e he
    simp [melodyBars] at he
  | cons bar rest ih =>
    intro rng e he
    simp only [melodyBars, List.mem_append] at he
    rcases he with he | he
    · exact melodyHits_tick_bounds lead_scale _ _
        (mul_nonneg (Int.natCast_nonneg bar) hbt) _ _ e he
    · exact ih _ e he

theorem drumSteps_tick_bounds (bs : Int) (hbs : 0 ≤ bs) (l : List Nat) :
    ∀ rng, ∀ e ∈ (drumSteps bs l rng).1, 0 ≤ e.1 := by
  induction l with
  | nil =>
    intro rng e he
    simp [drumSteps] at he
  | cons i rest ih =>
    intro rng e he
    have hq : PPQN / 4 = (120 : Int) := by decide
    have ht : (0 : Int) ≤ bs + (i : Int) * (PPQN / 4) := by
      rw [hq]
      positivity
    by_cases hi : i % 2 = 0
    · rw [drumSteps, if_pos hi] at he
      simp only [List.mem_append] at he
      rcases he with ((hk | hs) | hh) | hr
      · rcases List.mem_cons.mp (mem_ite_nil hk) with h | h
        · rw [h]; simp only; omega
        · simp at h
          rw [h]; simp only; omega
      · rcases List.mem_cons.mp (mem_ite_nil hs) with h | h
        · rw [h]; simp only; omega
        · simp at h
          rw [h]; simp only; omega
      · simp only [List.mem_cons] at hh
        rcases hh with h | h
        · rw [h]; simp only; omega
        · simp at h
          rw [h]; simp only; omega
      · exact ih _ e hr
    · rw [drumSteps, if_neg hi] at he
      simp only [List.mem_append] at he
      rcases he with (hk | hs) | hr
      · rcases List.mem_cons.mp (mem_ite_nil hk) with h | h
        · rw [h]; simp only; omega
        · simp at h
          rw [h]; simp only; omega
      · rcases List.mem_cons.mp (mem_ite_nil hs) with h | h
        · rw [h]; simp only; omega
        · simp at h
          rw [h]; simp only; omega
      · exact ih _ e hr

theorem drumBars_tick_bounds (bt : Int) (hbt : 0 ≤ bt) (l : List Nat) :
    ∀ rng, ∀ e ∈ (drumBars bt l rng).1, 0 ≤ e.1 := by
  induction l with
  | nil =>
    intro rng e he
    simp [drumBars] at he
  | cons bar rest ih =>
    intro rng e he
    simp only [drumBars, List.mem_append] at he
    rcases he with he | he
    · exact drumSteps_tick_bounds _ (mul_nonneg (Int.natCast_nonneg bar) hbt) _ _ e he
    · exact ih _ e he

/-- C5 counterexample: with one bar, chord-tone context `{0, 2, 4}` and a
random stream realising the maximal negative micro-timing jitter
(`randint(-20, 20) = -20`), the melody generator emits a note-on whose
absolute tick is negative. -/
theorem melody_negative_tick_cex :
    ∃ evs, make_melody { bars := 1 } [[0, 2, 4]] 1920 zeroSrc = .ok evs
      ∧ ∃ e ∈ evs, e.1 < 0 := by
  refine ⟨_, rfl, ?_⟩
  decide

/-- C5 amended: chord events have non-negative ticks whenever the bar length
is at least 100 ticks (any positive time-signature numerator gives
`bar_ticks ≥ 480`), drum events always have non-negative ticks, but melody
events are only bounded below by -20 (the micro-timing jitter can push the
first grid position of bar 0 before tick 0); independently, no two
*consecutive* events of the tick-sorted serialisation order ever yield a
negative delta — only the first event's delta from the initial tick 0 can be
negative. -/
theorem tick_bounds_amended :
    (∀ p bt src, 100 ≤ bt → ∀ e ∈ (chordRun p bt src).1, 0 ≤ e.1)
    ∧ (∀ p bt src, 0 ≤ bt → ∀ e ∈ make_drums p bt src, 0 ≤ e.1)
    ∧ (∀ p degs bt src, 0 ≤ bt → ∀ e ∈ (melodyRun p degs bt src).1, (-20 : Int) ≤ e.1)
    ∧ (∀ events : List TEvent, ∀ d ∈ (deltasFrom 0 (sortedTicks events)).drop 1, 0 ≤ d) := by
  refine ⟨?_, ?_, ?_, ?_⟩
  · intro p bt src hbt e he
    exact chordBars_tick_bounds p.energy (chordScale p) (progressionTokens p.progression)
      bt hbt (List.range p.bars.toNat) _ e he
  · intro p bt src hbt e he
    exact drumBars_tick_bounds bt hbt (List.range p.bars.toNat) _ e he
  · intro p degs bt src hbt e he
    exact melodyBars_tick_bounds (leadScale p) degs bt hbt (List.range p.bars.toNat) _ e he
  · intro events d hd
    have hp := sortedTicks_pairwise events
    rcases hts : sortedTicks events with _ | ⟨t, ts⟩
    · rw [hts] at hd
      simp [deltasFrom] at hd
    · rw [hts] at hd hp
      rw [deltasFrom, List.drop_one, List.tail_cons] at hd
      exact deltasFrom_nonneg ts t (List.pairwise_cons.mp hp).1
        (List.pairwise_cons.mp hp).2 d hd

/-- Witness for C5 at bar length 1920 (the default `4 * 480`), the default
configuration, a one-bar chord-tone context, and a concrete one-event track. -/
theorem tick_bounds_amended_witness :
    ((100 : Int) ≤ 1920 ∧ (0 : Int) ≤ 1920)
    ∧ (∀ e ∈ (chordRun defaultParams 1920 zeroSrc).1, 0 ≤ e.1)
    ∧ (∀ e ∈ make_drums defaultParams 1920 zeroSrc, 0 ≤ e.1)
    ∧ (∀ e ∈ (melodyRun defaultParams [[0, 2, 4]] 1920 zeroSrc).1, (-20 : Int) ≤ e.1)
    ∧ (∀ d ∈ (deltasFrom 0 (sortedTicks [(3, [1])])).drop 1, 0 ≤ d) :=
  ⟨⟨by norm_num, by norm_num⟩,
   tick_bounds_amended.1 defaultParams 1920 zeroSrc (by norm_num),
   tick_bounds_amended.2.1 defaultParams 1920 zeroSrc (by norm_num),
   tick_bounds_amended.2.2.1 defaultParams [[0, 2, 4]] 1920 zeroSrc (by norm_num),
   tick_bounds_amended.2.2.2 [(3, [1])]⟩

/-! ## Claim C6: pitch and velocity byte bounds -/

theorem getD_bound {α : Type} (P : α → Prop) (l : List α) (d : α) (hl : ∀ x ∈ l, P x)
    (hd : P d) : ∀ i : Nat, P (l.getD i d) := by
  induction l with
  | nil =>
    intro i
    simpa [List.getD]
  | cons x l ih =>
    intro i
    cases i with
    | zero => simpa using hl x (List.mem_cons_self _ _)
    | succ i =>
      rw [List.getD_cons_succ]
      exact ih (fun y hy => hl y (List.mem_cons_of_mem _ hy)) i

theorem semi_bound (k : String) :
    0 ≤ (NOTE_TO_SEMI.lookup k).getD 0 ∧ (NOTE_TO_SEMI.lookup k).getD 0 ≤ 11 :=
  lookup_getD_bound (fun x => 0 ≤ x ∧ x ≤ 11) NOTE_TO_SEMI k 0 (by decide) (by norm_num)

theorem scaleIntervals_bounds (mode : String) : ∀ i ∈ scaleIntervals mode, 0 ≤ i ∧ i ≤ 11 := by
  intro i hi
  rw [scaleIntervals] at hi
  split at hi <;> (simp at hi; omega)

theorem scale_mem_bounds (semi : Int) (mode : String) (oct : Int) (hs0 : 0 ≤ semi)
    (hs1 : semi ≤ 11) (ho0 : 0 ≤ oct) :
    ∀ x ∈ buildScaleFrom semi mode oct, 0 ≤ x ∧ x ≤ 12 * (oct + 1) + 22 := by
  intro x hx
  rw [buildScaleFrom, List.mem_map] at hx
  obtain ⟨i, hi, rfl⟩ := hx
  have hb := scaleIntervals_bounds mode i hi
  rw [midi_note_from]
  constructor <;> nlinarith

theorem chord_vel_bounds (energy : ℚ) (j : Int) (he0 : 0 ≤ energy) (he1 : energy ≤ 1)
    (hj0 : -5 ≤ j) (hj1 : j ≤ 5) :
    60 ≤ int_trunc (65 + 15 * energy + (j : ℚ)) ∧ int_trunc (65 + 15 * energy + (j : ℚ)) ≤ 85 := by
  have hj0q : ((-5 : Int) : ℚ) ≤ (j : ℚ) := by exact_mod_cast hj0
  have hj1q : (j : ℚ) ≤ ((5 : Int) : ℚ) := by exact_mod_cast hj1
  have hq0 : (0 : ℚ) ≤ 65 + 15 * energy + (j : ℚ) := by
    push_cast at hj0q
    linarith
  rw [int_trunc, if_neg (by linarith)]
  constructor
  · rw [Int.le_floor]
    push_cast at hj0q ⊢
    linarith
  · have hlt : Int.floor (65 + 15 * energy + (j : ℚ)) < 86 := by
      rw [Int.floor_lt]
      push_cast at hj1q ⊢
      linarith
    omega

theorem chord_notes_bounds (scale : List Int) (triad : List Nat)
    (hs : ∀ x ∈ scale, 0 ≤ x ∧ x ≤ 115) :
    ∀ m ∈ chord_notes scale triad, 0 ≤ m ∧ m ≤ 127 := by
  intro m hm
  have hg : ∀ i : Nat, 0 ≤ scale.getD i 0 ∧ scale.getD i 0 ≤ 115 :=
    getD_bound (fun x => 0 ≤ x ∧ x ≤ 115) scale 0 hs (by norm_num)
  rw [chord_notes] at hm
  simp only [List.mem_cons, List.not_mem_nil, or_false] at hm
  rcases hm with rfl | rfl | rfl
  · have := hg (triad.getD 0 0)
    omega
  · have := hg (triad.getD 2 0)
    omega
  · have := hg (triad.getD 1 0)
    omega

theorem chordNoteEvents_bytes (energy : ℚ) (st et : Int) (he0 : 0 ≤ energy)
    (he1 : energy ≤ 1) : ∀ (notes : List Int) (rng : Rng),
    (∀ n ∈ notes, 0 ≤ n ∧ n ≤ 127) →
    ∀ e ∈ (chordNoteEvents energy st et notes rng).1, noteBytesOk e.2 := by
  intro notes
  induction notes with
  | nil =>
    intro rng _ e he
    simp [chordNoteEvents] at he
  | cons n ns ih =>
    intro rng hn e he
    simp only [chordNoteEvents, List.mem_cons] at he
    have hnb := hn n (List.mem_cons_self _ _)
    rcases he with he | he | he
    · rw [he]
      have hb := randint_bounds ((rng.randint 0 40).2) (-5) 5 (by norm_num)
      have hv := chord_vel_bounds energy _ he0 he1 hb.1 hb.2
      exact ⟨hnb.1, hnb.2, hv.1.trans' (by norm_num), hv.2.trans (by norm_num)⟩
    · rw [he]
      exact ⟨hnb.1, hnb.2, by norm_num, by norm_num⟩
    · exact ih _ (fun m hm => hn m (List.mem_cons_of_mem _ hm)) e he

theorem chordBars_bytes (energy : ℚ) (scale : List Int) (tokens : List (List Char))
    (bt : Int) (he0 : 0 ≤ energy) (he1 : energy ≤ 1)
    (hs : ∀ x ∈ scale, 0 ≤ x ∧ x ≤ 115) :
    ∀ (l : List Nat) (rng : Rng), ∀ e ∈ (chordBars energy scale tokens bt l rng).1,
      noteBytesOk e.2 := by
  intro l
  induction l with
  | nil =>
    intro rng e he
    simp [chordBars] at he
  | cons bar rest ih =>
    intro rng e he
    simp only [chordBars, List.mem_append] at he
    rcases he with he | he
    · exact chordNoteEvents_bytes energy _ _ he0 he1 _ _
        (chord_notes_bounds scale _ hs) e he
    · exact ih _ e he
theorem melodyHits_bytes (lead_scale : List Int) (chord_tones : List Nat) (base_tick : Int)
    (hs : ∀ x ∈ lead_scale, 0 ≤ x ∧ x ≤ 127) :
    ∀ (grid : List (Nat × Nat)) (rng : Rng),
      ∀ e ∈ (melodyHits lead_scale chord_tones base_tick grid rng).1, noteBytesOk e.2 := by
  have hg : ∀ j : Nat, 0 ≤ lead_scale.getD j 0 ∧ lead_scale.getD j 0 ≤ 127 :=
    getD_bound (fun x => 0 ≤ x ∧ x ≤ 127) lead_scale 0 hs (by norm_num)
  intro grid
  induction grid with
  | nil =>
    intro rng e he
    simp [melodyHits] at he
  | cons q rest ih =>
    obtain ⟨i, hit⟩ := q
    intro rng e he
    by_cases hh : hit = 0
    · rw [melodyHits, if_pos hh] at he
      exact ih _ e he
    · rw [melodyHits, if_neg hh] at he
      simp only [List.mem_cons] at he
      rcases he with he | he | he
      · rw [he]
        have hgen : ∀ q : Nat × Rng,
            noteBytesOk [145, lead_scale.getD q.1 0,
              (if i = 0 then (100 : Int) else if i % 4 = 0 then 85 else 70)
                + ((q.2.randint (-20) 20).2.randint (-10) 10).1] := by
          intro q
          have hj := randint_bounds ((q.2.randint (-20) 20).2) (-10) 10 (by norm_num)
          have hn := hg q.1
          have hv0 : (70 : Int) ≤ (if i = 0 then (100 : Int) else if i % 4 = 0 then 85 else 70)
              ∧ (if i = 0 then (100 : Int) else if i % 4 = 0 then 85 else 70) ≤ 100 := by
            split_ifs <;> norm_num
          exact ⟨hn.1, hn.2, by omega, by omega⟩
        exact hgen _
      · rw [he]
        have hgen : ∀ q : Nat × Rng, noteBytesOk [129, lead_scale.getD q.1 0, 0] := by
          intro q
          have hn := hg q.1
          exact ⟨hn.1, hn.2, by norm_num, by norm_num⟩
        exact hgen _
      · exact ih _ e he

theorem melodyBars_bytes (lead_scale : List Int) (chord_degs : List (List Nat)) (bt : Int)
    (hs : ∀ x ∈ lead_scale, 0 ≤ x ∧ x ≤ 127) :
    ∀ (l : List Nat) (rng : Rng), ∀ e ∈ (melodyBars lead_scale chord_degs bt l rng).1,
      noteBytesOk e.2 := by
  intro l
  induction l with
  | nil =>
    intro rng e he
    simp [melodyBars] at he
  | cons bar rest ih =>
    intro rng e he
    simp only [melodyBars, List.mem_append] at he
    rcases he with he | he
    · exact melodyHits_bytes lead_scale _ _ hs _ _ e he
    · exact ih _ e he

theorem drumSteps_bytes (bs : Int) : ∀ (l : List Nat) (rng : Rng),
    ∀ e ∈ (drumSteps bs l rng).1, noteBytesOk e.2 := by
  intro l
  induction l with
  | nil =>
    intro rng e he
    simp [drumSteps] at he
  | cons i rest ih =>
    intro rng e he
    have hhat : ∀ r : Rng, noteBytesOk [153, 42,
        (if i % 4 = 0 then (90 : Int) else 65) + (r.randint (-5) 5).1] := by
      intro r
      have hj := randint_bounds r (-5) 5 (by norm_num)
      have hv : (65 : Int) ≤ (if i % 4 = 0 then (90 : Int) else 65)
          ∧ (if i % 4 = 0 then (90 : Int) else 65) ≤ 90 := by
        split_ifs <;> norm_num
      exact ⟨by norm_num, by norm_num, by omega, by omega⟩
    by_cases hi : i % 2 = 0
    · rw [drumSteps, if_pos hi] at he
      simp only [List.mem_append] at he
      rcases he with ((hk | hs) | hh) | hr
      · rcases List.mem_cons.mp (mem_ite_nil hk) with h | h
        · rw [h]
          exact ⟨by norm_num, by norm_num, by norm_num, by norm_num⟩
        · simp only [List.mem_singleton] at h
          rw [h]
          exact ⟨by norm_num, by norm_num, by norm_num, by norm_num⟩
      · rcases List.mem_cons.mp (mem_ite_nil hs) with h | h
        · rw [h]
          exact ⟨by norm_num, by norm_num, by norm_num, by norm_num⟩
        · simp only [List.mem_singleton] at h
          rw [h]
          exact ⟨by norm_num, by norm_num, by norm_num, by norm_num⟩
      · simp only [List.mem_cons, List.not_mem_nil, or_false] at hh
        rcases hh with h | h
        · rw [h]
          exact hhat _
        · rw [h]
          exact ⟨by norm_num, by norm_num, by norm_num, by norm_num⟩
      · exact ih _ e hr
    · rw [drumSteps, if_neg hi] at he
      simp only [List.mem_append] at he
      rcases he with (hk | hs) | hr
      · rcases List.mem_cons.mp (mem_ite_nil hk) with h | h
        · rw [h]
          exact ⟨by norm_num, by norm_num, by norm_num, by norm_num⟩
        · simp only [List.mem_singleton] at h
          rw [h]
          exact ⟨by norm_num, by norm_num, by norm_num, by norm_num⟩
      · rcases List.mem_cons.mp (mem_ite_nil hs) with h | h
        · rw [h]
          exact ⟨by norm_num, by norm_num, by norm_num, by norm_num⟩
        · simp only [List.mem_singleton] at h
          rw [h]
          exact ⟨by norm_num, by norm_num, by norm_num, by norm_num⟩
      · exact ih _ e hr

theorem drumBars_bytes (bt : Int) : ∀ (l : List Nat) (rng : Rng),
    ∀ e ∈ (drumBars bt l rng).1, noteBytesOk e.2 := by
  intro l
  induction l with
  | nil =>
    intro rng e he
    simp [drumBars] at he
  | cons bar rest ih =>
    intro rng e he
    simp only [drumBars, List.mem_append] at he
    rcases he with he | he
    · exact drumSteps_bytes _ _ _ e he
    · exact ih _ e he

/-- C6 counterexample: generation performs no clamping and accepts any
configuration, so with `chord_octave = 9` the full pipeline succeeds while
the chord generator emits a note-off whose pitch byte is 136 > 127. -/
theorem pitch_out_of_range_cex :
    (generate_song_bytes { bars := 1, chord_octave := 9 } zeroSrc).isOk = true
    ∧ ∃ e ∈ (chordRun { bars := 1, chord_octave := 9 } 1920 zeroSrc).1,
        ¬ noteBytesOk e.2 := by
  refine ⟨rfl, ?_⟩
  have h5 : 5 < (chordRun { bars := 1, chord_octave := 9 } 1920 zeroSrc).1.length := by
    have hlen : (chordRun { bars := 1, chord_octave := 9 } 1920 zeroSrc).1.length = 6 := rfl
    omega
  refine ⟨(chordRun { bars := 1, chord_octave := 9 } 1920 zeroSrc).1.get ⟨5, h5⟩,
    List.get_mem _ _ _, ?_⟩
  have hmsg : ((chordRun { bars := 1, chord_octave := 9 } 1920 zeroSrc).1.get ⟨5, h5⟩).2
      = [128, 136, 0] := rfl
  rw [hmsg]
  intro h
  exact absurd h.2.1 (by norm_num)

/-- C6 amended: no clamping is performed anywhere; the `[0, 127]` bounds hold
for the chord generator when `energy ∈ [0, 1]` and `chord_octave ∈ [0, 6]`
(velocities then land in `[60, 85]`), for the melody generator when
`melody_octave ∈ [0, 7]`, and for the drum generator unconditionally; outside
those parameter ranges the emitted bytes can leave `[0, 127]`. -/
theorem note_byte_bounds_amended :
    (∀ p bt src, 0 ≤ p.energy → p.energy ≤ 1 → 0 ≤ p.chord_octave → p.chord_octave ≤ 6 →
      ∀ e ∈ (chordRun p bt src).1, noteBytesOk e.2)
    ∧ (∀ p degs bt src, 0 ≤ p.melody_octave → p.melody_octave ≤ 7 →
      ∀ e ∈ (melodyRun p degs bt src).1, noteBytesOk e.2)
    ∧ (∀ p bt src, ∀ e ∈ make_drums p bt src, noteBytesOk e.2) := by
  refine ⟨?_, ?_, ?_⟩
  · intro p bt src he0 he1 ho0 ho1 e he
    have hsemi := semi_bound p.key
    have hs : ∀ x ∈ chordScale p, 0 ≤ x ∧ x ≤ 115 := by
      intro x hx
      have := scale_mem_bounds _ p.mode _ hsemi.1 hsemi.2 ho0 x hx
      omega
    exact chordBars_bytes p.energy (chordScale p) (progressionTokens p.progression)
      bt he0 he1 hs _ _ e he
  · intro p degs bt src ho0 ho1 e he
    have hsemi := semi_bound p.key
    have hs : ∀ x ∈ leadScale p, 0 ≤ x ∧ x ≤ 127 := by
      intro x hx
      have := scale_mem_bounds _ p.mode _ hsemi.1 hsemi.2 ho0 x hx
      omega
    exact melodyBars_bytes (leadScale p) degs bt hs _ _ e he
  · intro p bt src e he
    exact drumBars_bytes bt _ _ e he

/-- Witness for C6 at the default configuration (energy 3/4, octaves 3 and 5). -/
theorem note_byte_bounds_witness :
    ((0 : ℚ) ≤ defaultParams.energy ∧ defaultParams.energy ≤ 1
      ∧ (0 : Int) ≤ defaultParams.chord_octave ∧ defaultParams.chord_octave ≤ 6
      ∧ (0 : Int) ≤ defaultParams.melody_octave ∧ defaultParams.melody_octave ≤ 7)
    ∧ (∀ e ∈ (chordRun defaultParams 1920 zeroSrc).1, noteBytesOk e.2)
    ∧ (∀ e ∈ (melodyRun defaultParams [[0, 2, 4]] 1920 zeroSrc).1, noteBytesOk e.2)
    ∧ (∀ e ∈ make_drums defaultParams 1920 zeroSrc, noteBytesOk e.2) :=
  ⟨⟨by norm_num [defaultParams], by norm_num [defaultParams], by norm_num [defaultParams],
    by norm_num [defaultParams], by norm_num [defaultParams], by norm_num [defaultParams]⟩,
   note_byte_bounds_amended.1 defaultParams 1920 zeroSrc (by norm_num [defaultParams])
     (by norm_num [defaultParams]) (by norm_num [defaultParams]) (by norm_num [defaultParams]),
   note_byte_bounds_amended.2.1 defaultParams [[0, 2, 4]] 1920 zeroSrc
     (by norm_num [defaultParams]) (by norm_num [defaultParams]),
   note_byte_bounds_amended.2.2 defaultParams 1920 zeroSrc⟩

/-! ## Claim C9: chord cycle and open voicing -/

theorem chordBars_degs (energy : ℚ) (scale : List Int) (tokens : List (List Char)) (bt : Int) :
    ∀ (l : List Nat) (rng : Rng),
      (chordBars energy scale tokens bt l rng).2.1 = l.map (triad_of tokens) := by
  intro l
  induction l with
  | nil =>
    intro rng
    simp [chordBars]
  | cons bar rest ih =>
    intro rng
    simp [chordBars, ih]

theorem notedOnPitches_chordNoteEvents (energy : ℚ) (st et : Int) :
    ∀ (notes : List Int) (rng : Rng),
      notedOnPitches (chordNoteEvents energy st et notes rng).1 = notes := by
  intro notes
  induction notes with
  | nil =>
    intro rng
    simp [chordNoteEvents, notedOnPitches]
  | cons n ns ih =>
    intro rng
    have hrec := ih (((rng.randint 0 40).2.randint (-5) 5).2)
    rw [notedOnPitches] at hrec ⊢
    simp only [chordNoteEvents, List.filterMap_cons]
    norm_num [hrec]

theorem chordBars_pitches (energy : ℚ) (scale : List Int) (tokens : List (List Char))
    (bt : Int) : ∀ (l : List Nat) (rng : Rng),
      notedOnPitches (chordBars energy scale tokens bt l rng).1
        = l.flatMap (fun bar => chord_notes scale (triad_of tokens bar)) := by
  intro l
  induction l with
  | nil =>
    intro rng
    simp [chordBars, notedOnPitches]
  | cons bar rest ih =>
    intro rng
    have h1 := notedOnPitches_chordNoteEvents energy ((bar : Int) * bt) (((bar : Int) + 1) * bt)
      (chord_notes scale (triad_of tokens bar)) rng
    have h2 := ih (chordNoteEvents energy ((bar : Int) * bt) (((bar : Int) + 1) * bt)
      (chord_notes scale (triad_of tokens bar)) rng).2
    rw [notedOnPitches] at h1 h2 ⊢
    simp only [chordBars, List.filterMap_append, List.flatMap_cons, h1, h2]

/-- C9 (confirmed): for every accepted configuration the chord generator
resolves the progression token of bar `b` cyclically (`b mod` progression
length) and forms the triad degree list `[root % 7, (root+2) % 7,
(root+4) % 7]` (`triad_of`); the emitted note-on pitches are exactly, bar by
bar, the open voicing `[scale[root], scale[fifth], scale[third] + 12]`
(`chord_notes`, third raised one octave); and for the progression
"I-V-vi-IV" bar 4 resolves to the token "I" with triad degrees `{0, 2, 4}`. -/
theorem chord_cycle_voicing :
    (∀ p bt src out, make_chords p bt src = .ok out →
      out.2 = (List.range p.bars.toNat).map (triad_of (progressionTokens p.progression))
      ∧ notedOnPitches out.1 = (List.range p.bars.toNat).flatMap
          (fun bar => chord_notes (chordScale p)
            (triad_of (progressionTokens p.progression) bar)))
    ∧ progressionTokens "I-V-vi-IV" = ["I".data, "V".data, "vi".data, "IV".data]
    ∧ (progressionTokens "I-V-vi-IV").getD (4 % (progressionTokens "I-V-vi-IV").length) []
        = "I".data
    ∧ triad_of (progressionTokens "I-V-vi-IV") 4 = [0, 2, 4] := by
  refine ⟨?_, by decide, by decide, by decide⟩
  intro p bt src out hok
  rw [make_chords] at hok
  rcases hlk : NOTE_TO_SEMI.lookup p.key with _ | semi
  · rw [hlk] at hok
    exact absurd hok (by simp)
  · rw [hlk] at hok
    simp only at hok
    split at hok
    · exact absurd hok (by simp)
    · have hout : out = ((chordRun p bt src).1, (chordRun p bt src).2.1) :=
        (Except.ok.injEq _ _).mp hok.symm
      rw [hout, chordRun]
      exact ⟨chordBars_degs _ _ _ _ _ _, chordBars_pitches _ _ _ _ _ _⟩

/-- Witness for C9 at the default configuration: `make_chords` succeeds and
the degree and pitch structure follows. -/
theorem chord_cycle_voicing_witness :
    make_chords defaultParams 1920 zeroSrc
        = .ok ((chordRun defaultParams 1920 zeroSrc).1, (chordRun defaultParams 1920 zeroSrc).2.1)
    ∧ ((chordRun defaultParams 1920 zeroSrc).1, (chordRun defaultParams 1920 zeroSrc).2.1).2
        = (List.range defaultParams.bars.toNat).map
            (triad_of (progressionTokens defaultParams.progression))
    ∧ notedOnPitches ((chordRun defaultParams 1920 zeroSrc).1,
          (chordRun defaultParams 1920 zeroSrc).2.1).1
        = (List.range defaultParams.bars.toNat).flatMap
            (fun bar => chord_notes (chordScale defaultParams)
              (triad_of (progressionTokens defaultParams.progression) bar)) := by
  have hok : make_chords defaultParams 1920 zeroSrc
      = .ok ((chordRun defaultParams 1920 zeroSrc).1,
          (chordRun defaultParams 1920 zeroSrc).2.1) := rfl
  have h := chord_cycle_voicing.1 defaultParams 1920 zeroSrc
    ((chordRun defaultParams 1920 zeroSrc).1, (chordRun defaultParams 1920 zeroSrc).2.1) hok
  exact ⟨hok, h.1, h.2⟩

end GoatMusic
